import Mathlib

/-!
Shallow embedding of the reversal-strategy pipeline
(`src/calc_reversal_strategy.py`, `src/regression_hac.py`) of the
Evaporating-Liquidity replication repository, together with proofs of the
specification claims about it.

The panel is a list of rows `(entity, date, ret)` in dataframe order; missing
values (pandas `NaN`) are modelled with `Option`; float arithmetic is modelled
with exact rationals (and with reals where the source divides by `sqrt 250`).
-/

namespace Reversal

/-- One observation of the long-format panel: `(entity_id, period, return)`.
Entities and dates are encoded as naturals, returns as rationals. -/
structure Row where
  entity : ℕ
  date : ℕ
  ret : ℚ
  deriving DecidableEq, Repr

/-- The cross-section of a date: all rows of the panel observed at `d`
(in dataframe order), as selected by `groupby('date')`. -/
def rowsAt (df : List Row) (d : ℕ) : List Row :=
  df.filter (fun r => r.date = d)

/-- Sum of returns over the date-`d` cross-section. -/
def sumRet (df : List Row) (d : ℕ) : ℚ :=
  ((rowsAt df d).map (fun r => r.ret)).sum

/-- Size of the date-`d` cross-section. -/
def cnt (df : List Row) (d : ℕ) : ℕ :=
  (rowsAt df d).length

/-- Cross-sectional mean return at date `d` (`x.mean()` inside the
`groupby('date').transform`). -/
def dateMean (df : List Row) (d : ℕ) : ℚ :=
  sumRet df d / (cnt df d : ℚ)

/-- The demeaned return `ret-avg` of a row: its return minus the
cross-sectional mean of its date (line `df['ret-avg'] = ...transform(lambda
x: x - x.mean())`). -/
def retAvg (df : List Row) (r : Row) : ℚ :=
  r.ret - dateMean df r.date

/-- Total absolute demeaned return `Σ|r̃|` of the date-`d` cross-section
(`x.abs().sum()` inside the weight transform). -/
def absSum (df : List Row) (d : ℕ) : ℚ :=
  ((rowsAt df d).map (fun r => |retAvg df r|)).sum

/-- The finite weight value `-r̃ / (0.5 · Σ|r̃|)` of a row. -/
def wVal (df : List Row) (r : Row) : ℚ :=
  -retAvg df r / (0.5 * absSum df r.date)

/-- The weight column `w` of a row (line `df['w'] = ...transform(lambda x: -
x / (0.5 * x.abs().sum()))`).  When `Σ|r̃| = 0` every demeaned return of the
cross-section is `0`, so the float division is `-0.0/0.0 = NaN`: modelled as
`none`. -/
def wOpt (df : List Row) (r : Row) : Option ℚ :=
  if absSum df r.date = 0 then none else some (wVal df r)

section ListLemmas

variable {α : Type _}

theorem sum_map_sub (l : List α) (f g : α → ℚ) :
    (l.map (fun x => f x - g x)).sum = (l.map f).sum - (l.map g).sum := by
  induction l with
  | nil => simp
  | cons x xs ih => simp [ih]; ring

theorem sum_map_mul_left (l : List α) (c : ℚ) (f : α → ℚ) :
    (l.map (fun x => c * f x)).sum = c * (l.map f).sum := by
  induction l with
  | nil => simp
  | cons x xs ih => simp [ih]; ring

theorem sum_map_nonneg (l : List α) (f : α → ℚ) (h : ∀ x ∈ l, 0 ≤ f x) :
    0 ≤ (l.map f).sum := by
  induction l with
  | nil => simp
  | cons x xs ih =>
      simp only [List.map_cons, List.sum_cons]
      have hx := h x (by simp)
      have hxs := ih (fun y hy => h y (by simp [hy]))
      linarith

/-- Splitting a sum at the positive values of `f`: the positive part equals
half of (whole sum + sum of absolute values). -/
theorem sum_filter_pos (l : List α) (f : α → ℚ) :
    ((l.filter (fun x => decide (0 < f x))).map f).sum =
      ((l.map f).sum + (l.map (fun x => |f x|)).sum) / 2 := by
  induction l with
  | nil => simp
  | cons x xs ih =>
      by_cases hx : 0 < f x
      · have habs : |f x| = f x := abs_of_pos hx
        rw [List.filter_cons, if_pos (by simp [hx])]
        simp only [List.map_cons, List.sum_cons, ih, habs]
        ring
      · have habs : |f x| = -f x := abs_of_nonpos (le_of_not_lt hx)
        rw [List.filter_cons, if_neg (by simp [hx])]
        simp only [List.map_cons, List.sum_cons, ih, habs]
        ring

end ListLemmas

section OptionLemmas

variable {α β γ : Type _}

theorem bind_congr' {o : Option α} {f g : α → Option β}
    (h : ∀ a, f a = g a) : o.bind f = o.bind g := by
  cases o with
  | none => rfl
  | some a => exact h a

theorem bind_map_eq (o : Option α) (f : α → β) (g : β → Option γ) :
    (o.map f).bind g = o.bind (fun a => g (f a)) := by
  cases o with
  | none => rfl
  | some a => rfl

theorem getD_map_mul (o : Option ℚ) (c : ℚ) :
    (o.map (fun x => c * x)).getD 0 = c * o.getD 0 := by
  cases o with
  | none => show (0 : ℚ) = c * 0; ring
  | some x => rfl

end OptionLemmas

theorem mem_rowsAt {df : List Row} {d : ℕ} {r : Row}
    (h : r ∈ rowsAt df d) : r ∈ df ∧ r.date = d := by
  have := List.mem_filter.mp h
  exact ⟨this.1, by simpa using this.2⟩

/-- The demeaned returns of a nonempty cross-section sum to zero. -/
theorem sum_retAvg_eq_zero (df : List Row) (d : ℕ) (h : cnt df d ≠ 0) :
    ((rowsAt df d).map (fun r => retAvg df r)).sum = 0 := by
  have hcongr : (rowsAt df d).map (fun r => retAvg df r) =
      (rowsAt df d).map (fun r => r.ret - dateMean df d) := by
    apply List.map_congr_left
    intro r hr
    rw [retAvg, (mem_rowsAt hr).2]
  rw [hcongr, sum_map_sub]
  have hconst : ((rowsAt df d).map (fun _ => dateMean df d)).sum =
      (cnt df d : ℚ) * dateMean df d := by
    rw [List.map_const', List.sum_replicate, cnt, nsmul_eq_mul]
  rw [hconst, dateMean, sumRet]
  have hc : (cnt df d : ℚ) ≠ 0 := Nat.cast_ne_zero.mpr h
  field_simp

/-- A cross-section with nonzero total absolute demeaned return is nonempty. -/
theorem cnt_ne_zero_of_absSum (df : List Row) (d : ℕ)
    (h : absSum df d ≠ 0) : cnt df d ≠ 0 := by
  intro hc
  apply h
  have : rowsAt df d = [] := List.length_eq_zero.mp hc
  simp [absSum, this]

/-- The total absolute demeaned return is positive when nonzero. -/
theorem absSum_pos (df : List Row) (d : ℕ) (h : absSum df d ≠ 0) :
    0 < absSum df d := by
  rcases lt_or_eq_of_le (sum_map_nonneg (rowsAt df d)
      (fun r => |retAvg df r|) (fun r _ => abs_nonneg _)) with hlt | heq
  · exact hlt
  · exact absurd heq.symm h

/-- **C1.** For a period with a non-degenerate cross-section (`Σ|r̃| ≠ 0`),
the weight column is finite (`some`) on every row of the cross-section, the
weights sum to zero, and the positive weights sum to one: the portfolio is
zero-cost and dollar-neutral with one dollar long. -/
theorem weights_sum_zero_pos_sum_one (df : List Row) (d : ℕ)
    (h : absSum df d ≠ 0) :
    (∀ r ∈ rowsAt df d, wOpt df r = some (wVal df r)) ∧
      ((rowsAt df d).map (fun r => wVal df r)).sum = 0 ∧
      (((rowsAt df d).filter (fun r => decide (0 < wVal df r))).map
          (fun r => wVal df r)).sum = 1 := by
  have hS := absSum_pos df d h
  have hcnt := cnt_ne_zero_of_absSum df d h
  -- on the cross-section, the date of each row is d
  have hwcongr : (rowsAt df d).map (fun r => wVal df r) =
      (rowsAt df d).map (fun r => (-1 / (0.5 * absSum df d)) * retAvg df r) := by
    apply List.map_congr_left
    intro r hr
    rw [wVal, (mem_rowsAt hr).2]
    ring
  have hsum0 : ((rowsAt df d).map (fun r => wVal df r)).sum = 0 := by
    rw [hwcongr, sum_map_mul_left, sum_retAvg_eq_zero df d hcnt, mul_zero]
  have habscongr : (rowsAt df d).map (fun r => |wVal df r|) =
      (rowsAt df d).map (fun r => (1 / (0.5 * absSum df d)) * |retAvg df r|) := by
    apply List.map_congr_left
    intro r hr
    rw [wVal, (mem_rowsAt hr).2, abs_div, abs_neg]
    rw [abs_of_pos (by positivity : (0:ℚ) < 0.5 * absSum df d)]
    ring
  have habssum : ((rowsAt df d).map (fun r => |wVal df r|)).sum = 2 := by
    rw [habscongr, sum_map_mul_left]
    show 1 / (0.5 * absSum df d) * absSum df d = 2
    field_simp
    ring
  refine ⟨?_, hsum0, ?_⟩
  · intro r hr
    rw [wOpt, (mem_rowsAt hr).2, if_neg h]
  · rw [sum_filter_pos, hsum0, habssum]
    norm_num

/-- The concrete two-entity, one-date panel used by the witnesses. -/
def panelTwo : List Row := [⟨0, 0, 1⟩, ⟨1, 0, 3⟩]

theorem absSum_panelTwo : absSum panelTwo 0 = 2 := by
  norm_num [absSum, rowsAt, panelTwo, retAvg, dateMean, sumRet, cnt,
    List.filter]

/-- **C1 witness**: a two-entity, one-date panel with returns 1 and 3; the
weights are `1` and `-1`. -/
theorem weights_sum_zero_pos_sum_one_witness :
    absSum panelTwo 0 ≠ 0 ∧
      (((rowsAt panelTwo 0).map (fun r => wVal panelTwo r)).sum = 0 ∧
        (((rowsAt panelTwo 0).filter
            (fun r => decide (0 < wVal panelTwo r))).map
            (fun r => wVal panelTwo r)).sum = 1) :=
  ⟨by rw [absSum_panelTwo]; norm_num,
    ((weights_sum_zero_pos_sum_one panelTwo 0
        (by rw [absSum_panelTwo]; norm_num)).2.1),
    ((weights_sum_zero_pos_sum_one panelTwo 0
        (by rw [absSum_panelTwo]; norm_num)).2.2)⟩

/-- **C5.** For a period with zero total absolute demeaned return the weight
of every row of the cross-section is the missing value `none`: no
divide-by-zero error and no fabricated finite weight. -/
theorem degenerate_weight_missing (df : List Row) (d : ℕ)
    (h : absSum df d = 0) :
    ∀ r ∈ rowsAt df d, wOpt df r = none := by
  intro r hr
  rw [wOpt, (mem_rowsAt hr).2, if_pos h]

theorem absSum_single : absSum [⟨0, 0, 5⟩] 0 = 0 := by
  norm_num [absSum, rowsAt, retAvg, dateMean, sumRet, cnt, List.filter]

/-- **C5 witness**: a single-entity cross-section has `Σ|r̃| = 0` and a
missing weight. -/
theorem degenerate_weight_missing_witness :
    absSum [⟨0, 0, 5⟩] 0 = 0 ∧ wOpt [⟨0, 0, 5⟩] (⟨0, 0, 5⟩ : Row) = none :=
  ⟨absSum_single,
    degenerate_weight_missing [⟨0, 0, 5⟩] 0 absSum_single ⟨0, 0, 5⟩
      (by simp [rowsAt, List.filter])⟩

/-! ## Per-entity lagged weights and the aggregate strategy return -/

/-- The observed sequence of one entity: the panel rows of entity `e` in
dataframe order, as selected by `groupby(type_col)`. -/
def entHist (df : List Row) (e : ℕ) : List Row :=
  df.filter (fun r => r.entity = e)

/-- Position of the (unique, by the panel invariant) row with date `d` in a
row list. -/
def idxAt : List Row → ℕ → Option ℕ
  | [], _ => none
  | r :: rs, d => if r.date = d then some 0 else (idxAt rs d).map (· + 1)

/-- The `i`-lagged weight `w_lag_i` of the row `(e, d)`: the weight of the
row `i` positions earlier in entity `e`'s own observed sequence
(`df.groupby(type_col)['w'].shift(i)`), missing when fewer than `i` rows of
the entity precede, or when that earlier weight is itself missing. -/
def wLag (df : List Row) (i : ℕ) (e d : ℕ) : Option ℚ :=
  (idxAt (entHist df e) d).bind (fun j =>
    if i ≤ j then ((entHist df e)[j - i]?).bind (fun r' => wOpt df r')
    else none)

/-- The `NaN`-propagating combination `(w_lag_1 + w_lag_2 + w_lag_3 +
w_lag_4 + w_lag_5) * ret / 5`: float addition propagates `NaN`, so the
result is missing as soon as one summand is. -/
def sum5 (o1 o2 o3 o4 o5 : Option ℚ) (x : ℚ) : Option ℚ :=
  match o1, o2, o3, o4, o5 with
  | some a, some b, some c, some d, some e =>
      some ((a + b + c + d + e) * x / 5)
  | _, _, _, _, _ => none

/-- The per-row strategy-return contribution `rev_ret = (w_lag_1 + ... +
w_lag_5) * ret / 5`. -/
def revRetOpt (df : List Row) (r : Row) : Option ℚ :=
  sum5 (wLag df 1 r.entity r.date) (wLag df 2 r.entity r.date)
    (wLag df 3 r.entity r.date) (wLag df 4 r.entity r.date)
    (wLag df 5 r.entity r.date) r.ret

/-- The aggregate strategy return of date `d`
(`df.groupby('date')['rev_ret'].sum()`): pandas sums a group skipping
missing values, so a missing contribution counts as nothing and an
all-missing group sums to `0`. -/
def revRetAgg (df : List Row) (d : ℕ) : ℚ :=
  ((rowsAt df d).map (fun r => (revRetOpt df r).getD 0)).sum

/-- The dates of the panel, first occurrence order: the index of the output
series of the `groupby('date')` sum. -/
def panelDates (df : List Row) : List ℕ :=
  (df.map (fun r => r.date)).dedup

/-- The output series of `calc_reverse_strategy_ret`: one `(date, return)`
entry per distinct date of the panel. -/
def aggSeries (df : List Row) : List (ℕ × ℚ) :=
  (panelDates df).map (fun d => (d, revRetAgg df d))

theorem sum5_getD_of_isSome (o1 o2 o3 o4 o5 : Option ℚ) (x : ℚ)
    (h : (sum5 o1 o2 o3 o4 o5 x).isSome) :
    (sum5 o1 o2 o3 o4 o5 x).getD 0 =
      (o1.getD 0 + o2.getD 0 + o3.getD 0 + o4.getD 0 + o5.getD 0) * x / 5 := by
  rcases o1 with _ | a <;> rcases o2 with _ | b <;> rcases o3 with _ | c <;>
    rcases o4 with _ | d <;> rcases o5 with _ | e <;> simp_all [sum5]

theorem revRetOpt_getD_of_isSome (df : List Row) (r : Row)
    (h : (revRetOpt df r).isSome) :
    (revRetOpt df r).getD 0 =
      ((wLag df 1 r.entity r.date).getD 0 + (wLag df 2 r.entity r.date).getD 0 +
        (wLag df 3 r.entity r.date).getD 0 + (wLag df 4 r.entity r.date).getD 0 +
        (wLag df 5 r.entity r.date).getD 0) * r.ret / 5 :=
  sum5_getD_of_isSome _ _ _ _ _ _ h

/-- **C2.** At a date where every row of the cross-section has a defined
five-lag contribution, the aggregate strategy return equals the sum over the
entities present of `(w_{t-1} + w_{t-2} + w_{t-3} + w_{t-4} + w_{t-5}) ·
r_t / 5`, each lag taken positionally in the entity's own observed sequence. -/
theorem strategy_return_formula (df : List Row) (d : ℕ)
    (h : ∀ r ∈ rowsAt df d, (revRetOpt df r).isSome) :
    revRetAgg df d =
      ((rowsAt df d).map (fun r =>
        ((wLag df 1 r.entity r.date).getD 0 + (wLag df 2 r.entity r.date).getD 0 +
          (wLag df 3 r.entity r.date).getD 0 + (wLag df 4 r.entity r.date).getD 0 +
          (wLag df 5 r.entity r.date).getD 0) * r.ret / 5)).sum := by
  unfold revRetAgg
  congr 1
  apply List.map_congr_left
  intro r hr
  exact revRetOpt_getD_of_isSome df r (h r hr)

/-- Two entities, six consecutive dates, fixed cross-sectional returns 1 and
3: every cross-section is non-degenerate and at date 5 both entities have
five lagged weights. -/
def panelSix : List Row :=
  [⟨0, 0, 1⟩, ⟨1, 0, 3⟩, ⟨0, 1, 1⟩, ⟨1, 1, 3⟩, ⟨0, 2, 1⟩, ⟨1, 2, 3⟩,
   ⟨0, 3, 1⟩, ⟨1, 3, 3⟩, ⟨0, 4, 1⟩, ⟨1, 4, 3⟩, ⟨0, 5, 1⟩, ⟨1, 5, 3⟩]

theorem panelSix_wOpt_e0 (d : ℕ) (hd : d ∈ [0, 1, 2, 3, 4, 5]) :
    wOpt panelSix (⟨0, d, 1⟩ : Row) = some 1 := by
  fin_cases hd <;>
    norm_num [wOpt, wVal, absSum, rowsAt, panelSix, retAvg, dateMean, sumRet,
      cnt, List.filter_cons]

theorem panelSix_wOpt_e1 (d : ℕ) (hd : d ∈ [0, 1, 2, 3, 4, 5]) :
    wOpt panelSix (⟨1, d, 3⟩ : Row) = some (-1) := by
  fin_cases hd <;>
    norm_num [wOpt, wVal, absSum, rowsAt, panelSix, retAvg, dateMean, sumRet,
      cnt, List.filter_cons]

theorem panelSix_entHist_e0 : entHist panelSix 0 =
    [⟨0, 0, 1⟩, ⟨0, 1, 1⟩, ⟨0, 2, 1⟩, ⟨0, 3, 1⟩, ⟨0, 4, 1⟩, ⟨0, 5, 1⟩] := by
  norm_num [entHist, panelSix, List.filter_cons]

theorem panelSix_entHist_e1 : entHist panelSix 1 =
    [⟨1, 0, 3⟩, ⟨1, 1, 3⟩, ⟨1, 2, 3⟩, ⟨1, 3, 3⟩, ⟨1, 4, 3⟩, ⟨1, 5, 3⟩] := by
  norm_num [entHist, panelSix, List.filter_cons]

theorem panelSix_revRet_e0 : revRetOpt panelSix (⟨0, 5, 1⟩ : Row) = some 1 := by
  have w0 := panelSix_wOpt_e0 0 (by norm_num)
  have w1 := panelSix_wOpt_e0 1 (by norm_num)
  have w2 := panelSix_wOpt_e0 2 (by norm_num)
  have w3 := panelSix_wOpt_e0 3 (by norm_num)
  have w4 := panelSix_wOpt_e0 4 (by norm_num)
  norm_num [revRetOpt, sum5, wLag, panelSix_entHist_e0, idxAt, w0, w1, w2, w3, w4]

theorem panelSix_revRet_e1 : revRetOpt panelSix (⟨1, 5, 3⟩ : Row) =
    some (-3) := by
  have w0 := panelSix_wOpt_e1 0 (by norm_num)
  have w1 := panelSix_wOpt_e1 1 (by norm_num)
  have w2 := panelSix_wOpt_e1 2 (by norm_num)
  have w3 := panelSix_wOpt_e1 3 (by norm_num)
  have w4 := panelSix_wOpt_e1 4 (by norm_num)
  norm_num [revRetOpt, sum5, wLag, panelSix_entHist_e1, idxAt, w0, w1, w2, w3, w4]

theorem panelSix_rowsAt5 : rowsAt panelSix 5 = [⟨0, 5, 1⟩, ⟨1, 5, 3⟩] := by
  norm_num [rowsAt, panelSix, List.filter_cons]

/-- **C2 witness**: on `panelSix` at date 5 every row has a defined
contribution and the aggregate return matches the five-lag formula. -/
theorem strategy_return_formula_witness :
    (∀ r ∈ rowsAt panelSix 5, (revRetOpt panelSix r).isSome) ∧
      revRetAgg panelSix 5 =
        ((rowsAt panelSix 5).map (fun r =>
          ((wLag panelSix 1 r.entity r.date).getD 0 +
            (wLag panelSix 2 r.entity r.date).getD 0 +
            (wLag panelSix 3 r.entity r.date).getD 0 +
            (wLag panelSix 4 r.entity r.date).getD 0 +
            (wLag panelSix 5 r.entity r.date).getD 0) * r.ret / 5)).sum := by
  have h : ∀ r ∈ rowsAt panelSix 5, (revRetOpt panelSix r).isSome := by
    rw [panelSix_rowsAt5]
    intro r hr
    rcases List.mem_pair.mp hr with rfl | rfl
    · rw [panelSix_revRet_e0]; rfl
    · rw [panelSix_revRet_e1]; rfl
  exact ⟨h, strategy_return_formula panelSix 5 h⟩

/-! ## C3: periods without any defined contribution -/

/-- **C3 counterexample.**  In the one-date panel `panelTwo` no row has a
defined five-lag contribution, yet the output series reports a `0` return
for that date instead of dropping it or carrying a missing value: the
group-wise sum skips missing values and an all-missing group sums to `0`. -/
theorem undefined_period_reported_as_zero :
    (∀ r ∈ rowsAt panelTwo 0, revRetOpt panelTwo r = none) ∧
      aggSeries panelTwo = [(0, 0)] := by
  constructor
  · intro r hr
    have : r = (⟨0, 0, 1⟩ : Row) ∨ r = (⟨1, 0, 3⟩ : Row) := by
      simpa [rowsAt, panelTwo, List.filter_cons] using hr
    rcases this with rfl | rfl <;>
      norm_num [revRetOpt, sum5, wLag, entHist, panelTwo, List.filter_cons, idxAt]
  · have h0 : revRetOpt panelTwo (⟨0, 0, 1⟩ : Row) = none := by
      norm_num [revRetOpt, sum5, wLag, entHist, panelTwo, List.filter_cons, idxAt]
    have h1 : revRetOpt panelTwo (⟨1, 0, 3⟩ : Row) = none := by
      norm_num [revRetOpt, sum5, wLag, entHist, panelTwo, List.filter_cons, idxAt]
    simp only [panelTwo] at h0 h1
    simp [aggSeries, panelDates, panelTwo, revRetAgg, rowsAt,
      List.filter_cons, h0, h1]

/-- **C3 amended.**  A period of the panel at which every row's five-lag
contribution is missing is still present in the output series, carrying the
return `0` (not dropped, not missing): the group sum skips missing values
and returns `0` for an all-missing group. -/
theorem undefined_period_zero_in_output (df : List Row) (d : ℕ)
    (hd : d ∈ panelDates df)
    (h : ∀ r ∈ rowsAt df d, revRetOpt df r = none) :
    revRetAgg df d = 0 ∧ (d, 0) ∈ aggSeries df := by
  have hz : revRetAgg df d = 0 := by
    unfold revRetAgg
    have : (rowsAt df d).map (fun r => (revRetOpt df r).getD 0) =
        (rowsAt df d).map (fun _ => (0 : ℚ)) := by
      apply List.map_congr_left
      intro r hr
      rw [h r hr]
      rfl
    rw [this, List.map_const', List.sum_replicate, smul_zero]
  refine ⟨hz, ?_⟩
  have : (d, (0 : ℚ)) = (d, revRetAgg df d) := by rw [hz]
  rw [this]
  exact List.mem_map_of_mem (fun d => (d, revRetAgg df d)) hd

/-- **C3 amended witness**: instantiated on `panelTwo` at its single date. -/
theorem undefined_period_zero_in_output_witness :
    revRetAgg panelTwo 0 = 0 ∧ (0, 0) ∈ aggSeries panelTwo := by
  apply undefined_period_zero_in_output panelTwo 0
  · simp [panelDates, panelTwo]
  · intro r hr
    have : r = (⟨0, 0, 1⟩ : Row) ∨ r = (⟨1, 0, 3⟩ : Row) := by
      simpa [rowsAt, panelTwo, List.filter_cons] using hr
    rcases this with rfl | rfl <;>
      norm_num [revRetOpt, sum5, wLag, entHist, panelTwo, List.filter_cons, idxAt]

/-! ## C9: invariance of the weights under a positive rescaling of returns -/

/-- One row of the panel after the in-place rescaling
`df[ret_col] *= 100` (with a general factor `c`). -/
def scaleRow (c : ℚ) (r : Row) : Row :=
  ⟨r.entity, r.date, c * r.ret⟩

/-- The panel after the in-place rescaling of the return column. -/
def scalePanel (c : ℚ) (df : List Row) : List Row :=
  df.map (scaleRow c)

theorem rowsAt_scale (c : ℚ) (df : List Row) (d : ℕ) :
    rowsAt (scalePanel c df) d = (rowsAt df d).map (scaleRow c) := by
  induction df with
  | nil => rfl
  | cons r rs ih =>
      simp only [scalePanel, List.map_cons, rowsAt, List.filter_cons] at *
      by_cases h : r.date = d
      · simp [scaleRow, h, ih]
      · simp [scaleRow, h, ih]

theorem sumRet_scale (c : ℚ) (df : List Row) (d : ℕ) :
    sumRet (scalePanel c df) d = c * sumRet df d := by
  rw [sumRet, rowsAt_scale, List.map_map, sumRet, ← sum_map_mul_left]
  rfl

theorem cnt_scale (c : ℚ) (df : List Row) (d : ℕ) :
    cnt (scalePanel c df) d = cnt df d := by
  rw [cnt, rowsAt_scale, List.length_map, cnt]

theorem dateMean_scale (c : ℚ) (df : List Row) (d : ℕ) :
    dateMean (scalePanel c df) d = c * dateMean df d := by
  rw [dateMean, dateMean, sumRet_scale, cnt_scale, mul_div_assoc]

theorem retAvg_scale (c : ℚ) (df : List Row) (r : Row) :
    retAvg (scalePanel c df) (scaleRow c r) = c * retAvg df r := by
  show c * r.ret - dateMean (scalePanel c df) r.date = _
  rw [dateMean_scale, retAvg]
  ring

theorem absSum_scale (c : ℚ) (hc : 0 < c) (df : List Row) (d : ℕ) :
    absSum (scalePanel c df) d = c * absSum df d := by
  rw [absSum, rowsAt_scale, List.map_map, absSum, ← sum_map_mul_left]
  congr 1
  apply List.map_congr_left
  intro r _
  show |retAvg (scalePanel c df) (scaleRow c r)| = c * |retAvg df r|
  rw [retAvg_scale, abs_mul, abs_of_pos hc]

theorem wOpt_scale (c : ℚ) (hc : 0 < c) (df : List Row) (r : Row) :
    wOpt (scalePanel c df) (scaleRow c r) = wOpt df r := by
  have hd : (scaleRow c r).date = r.date := rfl
  rw [wOpt, wOpt, hd, absSum_scale c hc]
  by_cases h : absSum df r.date = 0
  · rw [h, mul_zero]
    simp
  · rw [if_neg (by exact fun hx => h (by
        rcases mul_eq_zero.mp hx with h1 | h2
        · exact absurd h1 (ne_of_gt hc)
        · exact h2)), if_neg h]
    congr 1
    rw [wVal, wVal, hd, retAvg_scale, absSum_scale c hc]
    rw [show (0.5 : ℚ) * (c * absSum df r.date) =
      c * (0.5 * absSum df r.date) by ring,
      show -(c * retAvg df r) = c * -retAvg df r by ring,
      mul_div_mul_left _ _ (ne_of_gt hc)]

theorem entHist_scale (c : ℚ) (df : List Row) (e : ℕ) :
    entHist (scalePanel c df) e = (entHist df e).map (scaleRow c) := by
  induction df with
  | nil => rfl
  | cons r rs ih =>
      simp only [scalePanel, List.map_cons, entHist, List.filter_cons] at *
      by_cases h : r.entity = e
      · simp [scaleRow, h, ih]
      · simp [scaleRow, h, ih]

theorem idxAt_map_scaleRow (c : ℚ) (l : List Row) (d : ℕ) :
    idxAt (l.map (scaleRow c)) d = idxAt l d := by
  induction l with
  | nil => rfl
  | cons r rs ih =>
      show (if r.date = d then some 0
          else (idxAt (rs.map (scaleRow c)) d).map (· + 1)) =
        (if r.date = d then some 0 else (idxAt rs d).map (· + 1))
      by_cases h : r.date = d
      · rw [if_pos h, if_pos h]
      · rw [if_neg h, if_neg h, ih]

theorem wLag_scale (c : ℚ) (hc : 0 < c) (df : List Row) (i e d : ℕ) :
    wLag (scalePanel c df) i e d = wLag df i e d := by
  unfold wLag
  rw [entHist_scale, idxAt_map_scaleRow]
  apply bind_congr'
  intro j
  by_cases hij : i ≤ j
  · rw [if_pos hij, if_pos hij, List.getElem?_map, bind_map_eq]
    apply bind_congr'
    intro r'
    exact wOpt_scale c hc df r'
  · rw [if_neg hij, if_neg hij]

theorem sum5_scale (o1 o2 o3 o4 o5 : Option ℚ) (c x : ℚ) :
    sum5 o1 o2 o3 o4 o5 (c * x) =
      (sum5 o1 o2 o3 o4 o5 x).map (fun y => c * y) := by
  rcases o1 with _ | a <;> rcases o2 with _ | b <;> rcases o3 with _ | b3 <;>
    rcases o4 with _ | b4 <;> rcases o5 with _ | b5 <;>
    simp only [sum5, Option.map_none', Option.map_some', Option.some.injEq]
  ring

theorem revRetOpt_scale (c : ℚ) (hc : 0 < c) (df : List Row) (r : Row) :
    revRetOpt (scalePanel c df) (scaleRow c r) =
      (revRetOpt df r).map (fun x => c * x) := by
  show sum5 (wLag (scalePanel c df) 1 r.entity r.date)
      (wLag (scalePanel c df) 2 r.entity r.date)
      (wLag (scalePanel c df) 3 r.entity r.date)
      (wLag (scalePanel c df) 4 r.entity r.date)
      (wLag (scalePanel c df) 5 r.entity r.date) (c * r.ret) = _
  rw [wLag_scale c hc, wLag_scale c hc, wLag_scale c hc, wLag_scale c hc,
    wLag_scale c hc, sum5_scale]
  rfl

/-- **C9.** Rescaling every return of the panel by the same positive
constant `c` (as the `×100` percent conversion does) leaves every weight
unchanged, and therefore rescales the aggregate strategy return by exactly
`c`: the rescaling acts only through the `r_t` multiplier, not through the
weights. -/
theorem scaling_leaves_weights_unchanged (df : List Row) (c : ℚ)
    (hc : 0 < c) :
    (∀ r : Row, wOpt (scalePanel c df) (scaleRow c r) = wOpt df r) ∧
      ∀ d : ℕ, revRetAgg (scalePanel c df) d = c * revRetAgg df d := by
  refine ⟨fun r => wOpt_scale c hc df r, fun d => ?_⟩
  rw [revRetAgg, rowsAt_scale, List.map_map, revRetAgg, ← sum_map_mul_left]
  congr 1
  apply List.map_congr_left
  intro r _
  show (revRetOpt (scalePanel c df) (scaleRow c r)).getD 0 = _
  rw [revRetOpt_scale c hc, getD_map_mul]

/-- **C9 witness**: instantiated with `c = 100` on the two-row panel. -/
theorem scaling_leaves_weights_unchanged_witness :
    wOpt (scalePanel 100 panelTwo) (scaleRow 100 ⟨0, 0, 1⟩) =
        wOpt panelTwo ⟨0, 0, 1⟩ ∧
      revRetAgg (scalePanel 100 panelTwo) 0 = 100 * revRetAgg panelTwo 0 :=
  ⟨(scaling_leaves_weights_unchanged panelTwo 100 (by norm_num)).1 ⟨0, 0, 1⟩,
    (scaling_leaves_weights_unchanged panelTwo 100 (by norm_num)).2 0⟩

/-! ## C8: effect of the strategy functions on the input panel -/

/-- A panel row after `calc_reverse_strategy_ret` ran: the pre-existing
fields plus the derived columns the function assigns in place
(`ret-avg`, `w`, `w_lag_1` … `w_lag_5`, `rev_ret`). -/
structure RowD where
  entity : ℕ
  date : ℕ
  ret : ℚ
  retAvgCol : ℚ
  wCol : Option ℚ
  wLagCol1 : Option ℚ
  wLagCol2 : Option ℚ
  wLagCol3 : Option ℚ
  wLagCol4 : Option ℚ
  wLagCol5 : Option ℚ
  revRetCol : Option ℚ
  deriving DecidableEq, Repr

/-- The derived columns attached to one row of the panel `df`. -/
def withDerived (df : List Row) (r : Row) : RowD :=
  { entity := r.entity, date := r.date, ret := r.ret,
    retAvgCol := retAvg df r, wCol := wOpt df r,
    wLagCol1 := wLag df 1 r.entity r.date,
    wLagCol2 := wLag df 2 r.entity r.date,
    wLagCol3 := wLag df 3 r.entity r.date,
    wLagCol4 := wLag df 4 r.entity r.date,
    wLagCol5 := wLag df 5 r.entity r.date,
    revRetCol := revRetOpt df r }

/-- The pre-existing fields of a row of the mutated dataframe. -/
def stripDerived (r : RowD) : Row :=
  ⟨r.entity, r.date, r.ret⟩

/-- `calc_reverse_strategy_ret`, with its side effect made explicit: the
pair of the caller's dataframe after the in-place column assignments and the
returned `groupby('date')['rev_ret'].sum()` series. -/
def calc_reverse_strategy_ret (df : List Row) : List RowD × List (ℕ × ℚ) :=
  (df.map (withDerived df), aggSeries df)

/-- `calc_reverse_strategy_individual`, with its side effect made explicit:
it first executes `df[ret_col] *= 100` on the caller's dataframe, runs the
weight engine, and truncates the output series to `[start, stop]`. -/
def calc_reverse_strategy_individual (df : List Row) (start stop : ℕ) :
    List RowD × List (ℕ × ℚ) :=
  let df2 := scalePanel 100 df
  ((calc_reverse_strategy_ret df2).1,
    (calc_reverse_strategy_ret df2).2.filter
      (fun p => start ≤ p.1 ∧ p.1 ≤ stop))

theorem map_stripDerived (df l : List Row) :
    (l.map (withDerived df)).map stripDerived = l := by
  rw [List.map_map]
  have h : stripDerived ∘ withDerived df = id := funext fun r => rfl
  rw [h, List.map_id]

/-- **C8 counterexample.**  After `calc_reverse_strategy_individual` runs on
the one-row panel with return `1`, the raw return column of the caller's
panel holds `100`, not `1`: the pre-existing return column is mutated, so
the engine does not consume the panel read-only. -/
theorem individual_mutates_return_column :
    (calc_reverse_strategy_individual [⟨0, 0, 1⟩] 0 0).1.map stripDerived =
        [⟨0, 0, 100⟩] ∧
      ([(⟨0, 0, 100⟩ : Row)] ≠ [(⟨0, 0, 1⟩ : Row)]) := by
  constructor
  · show ((scalePanel 100 [⟨0, 0, 1⟩]).map
        (withDerived (scalePanel 100 [⟨0, 0, 1⟩]))).map stripDerived = _
    rw [map_stripDerived]
    norm_num [scalePanel, scaleRow]
  · intro h
    have := List.head_eq_of_cons_eq h
    rw [Row.mk.injEq] at this
    norm_num at this

/-- **C8 amended.**  `calc_reverse_strategy_ret` itself leaves every
pre-existing field of the panel unchanged and only adds derived columns, but
`calc_reverse_strategy_individual` first rescales the raw return column in
place by `100`, so the panel it leaves behind carries `100×` the original
returns. -/
theorem panel_effects (df : List Row) (start stop : ℕ) :
    (calc_reverse_strategy_ret df).1.map stripDerived = df ∧
      (calc_reverse_strategy_individual df start stop).1.map stripDerived =
        scalePanel 100 df :=
  ⟨map_stripDerived df df, map_stripDerived _ _⟩

/-! ## Market-hedging module (`calc_hedged_return`, `calc_multiple_beta`)

The market index and the strategy return are modelled as total series
`ℕ → ℚ` on the first `n` trading days (both already restricted to the same
sample).  `sm.OLS(y, add_constant(factor)).fit()` on the nonsingular
three-column design `[1, f, f·sign]` is the unique solution of the normal
equations, written in closed form by Cramer's rule over exact rationals. -/

/-- `index.shift(1)`: the prior-period value, missing at the first period. -/
def shift1 (f : ℕ → ℚ) (t : ℕ) : Option ℚ :=
  if t = 0 then none else some (f (t - 1))

/-- The float comparison `x > c` of pandas: any comparison with `NaN` is
`False`. -/
def nanGt (o : Option ℚ) (c : ℚ) : Bool :=
  match o with
  | none => false
  | some x => decide (c < x)

/-- `shifted_sign = index.shift(1).apply(lambda x: 1 if x > 0 else -1)`. -/
def shiftedSign (f : ℕ → ℚ) (t : ℕ) : ℚ :=
  if nanGt (shift1 f t) 0 then 1 else -1

/-- The sign-interacted factor `index_shifted_sign = index * shifted_sign`. -/
def signFactor (f : ℕ → ℚ) (t : ℕ) : ℚ :=
  f t * shiftedSign f t

/-- Sum of a series over the `n` sample periods. -/
def mSum (n : ℕ) (g : ℕ → ℚ) : ℚ :=
  ∑ t in Finset.range n, g t

/-- Determinant of a 3×3 matrix given row-wise. -/
def det3 (a11 a12 a13 a21 a22 a23 a31 a32 a33 : ℚ) : ℚ :=
  a11 * (a22 * a33 - a23 * a32) - a12 * (a21 * a33 - a23 * a31) +
    a13 * (a21 * a32 - a22 * a31)

/-- Moments of the design: `Σ f`, `Σ f·sign-factor`, etc. -/
def sF (n : ℕ) (f : ℕ → ℚ) : ℚ := mSum n f

def sG (n : ℕ) (f : ℕ → ℚ) : ℚ := mSum n (signFactor f)

def sFF (n : ℕ) (f : ℕ → ℚ) : ℚ := mSum n (fun t => f t * f t)

def sFG (n : ℕ) (f : ℕ → ℚ) : ℚ := mSum n (fun t => f t * signFactor f t)

def sGG (n : ℕ) (f : ℕ → ℚ) : ℚ :=
  mSum n (fun t => signFactor f t * signFactor f t)

def sY (n : ℕ) (y : ℕ → ℚ) : ℚ := mSum n y

def sFY (n : ℕ) (f y : ℕ → ℚ) : ℚ := mSum n (fun t => f t * y t)

def sGY (n : ℕ) (f y : ℕ → ℚ) : ℚ :=
  mSum n (fun t => signFactor f t * y t)

/-- Determinant of the Gram matrix `XᵀX` of the design `[1, f, f·sign]`. -/
def gramDet (n : ℕ) (f : ℕ → ℚ) : ℚ :=
  det3 (n : ℚ) (sF n f) (sG n f)
    (sF n f) (sFF n f) (sFG n f)
    (sG n f) (sFG n f) (sGG n f)

/-- First OLS slope (`model.params[1]`): Cramer's rule, the Gram column of
`f` replaced by the moment vector `Xᵀy`. -/
def beta1 (n : ℕ) (f y : ℕ → ℚ) : ℚ :=
  det3 (n : ℚ) (sY n y) (sG n f)
      (sF n f) (sFY n f y) (sFG n f)
      (sG n f) (sGY n f y) (sGG n f) / gramDet n f

/-- Second OLS slope (`model.params[2]`). -/
def beta2 (n : ℕ) (f y : ℕ → ℚ) : ℚ :=
  det3 (n : ℚ) (sF n f) (sY n y)
      (sF n f) (sFF n f) (sFY n f y)
      (sG n f) (sFG n f) (sGY n f y) / gramDet n f

/-- `calc_multiple_beta(factor, ret)` with a constant: the slope pair
`model.params[1:]`. -/
def calc_multiple_beta (n : ℕ) (f y : ℕ → ℚ) : ℚ × ℚ :=
  (beta1 n f y, beta2 n f y)

/-- `time_varying_beta = beta[0] + beta[1] * shifted_sign`. -/
def time_varying_beta (n : ℕ) (f y : ℕ → ℚ) (t : ℕ) : ℚ :=
  (calc_multiple_beta n f y).1 + (calc_multiple_beta n f y).2 * shiftedSign f t

/-- `hedged_ret = ret - time_varying_beta * index`. -/
def calc_hedged_return (n : ℕ) (f y : ℕ → ℚ) (t : ℕ) : ℚ :=
  y t - time_varying_beta n f y t * f t

/-- The OLS residual of the fit `y = c0 + c1·f + c2·(f·sign) + ε`. -/
def residual (f y : ℕ → ℚ) (c0 c1 c2 : ℚ) (t : ℕ) : ℚ :=
  y t - (c0 + c1 * f t + c2 * signFactor f t)

/-- The normal equations (first-order conditions) characterising the OLS
coefficients of `y` on `[1, f, f·sign]` over the `n` sample periods. -/
def normalEq (n : ℕ) (f y : ℕ → ℚ) (c0 c1 c2 : ℚ) : Prop :=
  mSum n (residual f y c0 c1 c2) = 0 ∧
    mSum n (fun t => f t * residual f y c0 c1 c2 t) = 0 ∧
    mSum n (fun t => signFactor f t * residual f y c0 c1 c2 t) = 0

theorem mSum_congr (n : ℕ) (g h : ℕ → ℚ) (hgh : ∀ t, g t = h t) :
    mSum n g = mSum n h :=
  Finset.sum_congr rfl (fun t _ => hgh t)

theorem mSum_residual0 (n : ℕ) (f y : ℕ → ℚ) (c0 c1 c2 : ℚ) :
    mSum n (residual f y c0 c1 c2) =
      sY n y - (c0 * (n : ℚ) + c1 * sF n f + c2 * sG n f) := by
  unfold residual sY sF sG mSum
  rw [show ((n : ℕ) : ℚ) = ∑ _t in Finset.range n, (1 : ℚ) by simp]
  rw [Finset.mul_sum, Finset.mul_sum, Finset.mul_sum,
    ← Finset.sum_add_distrib, ← Finset.sum_add_distrib,
    ← Finset.sum_sub_distrib]
  exact Finset.sum_congr rfl (fun t _ => by ring)

theorem mSum_residual_g (n : ℕ) (f y : ℕ → ℚ) (c0 c1 c2 : ℚ) (g : ℕ → ℚ) :
    mSum n (fun t => g t * residual f y c0 c1 c2 t) =
      mSum n (fun t => g t * y t) -
        (c0 * mSum n g + c1 * mSum n (fun t => g t * f t) +
          c2 * mSum n (fun t => g t * signFactor f t)) := by
  unfold mSum residual
  rw [Finset.mul_sum, Finset.mul_sum, Finset.mul_sum,
    ← Finset.sum_add_distrib, ← Finset.sum_add_distrib,
    ← Finset.sum_sub_distrib]
  exact Finset.sum_congr rfl (fun t _ => by ring)

theorem normalEq_moments (n : ℕ) (f y : ℕ → ℚ) (c0 c1 c2 : ℚ)
    (hc : normalEq n f y c0 c1 c2) :
    sY n y = c0 * (n : ℚ) + c1 * sF n f + c2 * sG n f ∧
      sFY n f y = c0 * sF n f + c1 * sFF n f + c2 * sFG n f ∧
      sGY n f y = c0 * sG n f + c1 * sFG n f + c2 * sGG n f := by
  obtain ⟨h1, h2, h3⟩ := hc
  rw [mSum_residual0] at h1
  rw [mSum_residual_g] at h2
  rw [mSum_residual_g] at h3
  rw [mSum_congr n (fun t => signFactor f t * f t)
    (fun t => f t * signFactor f t) (fun t => mul_comm _ _)] at h3
  unfold sY sF sG sFF sFG sGG sFY sGY at *
  exact ⟨by linarith, by linarith, by linarith⟩

/-- **C4.** For every `(c0, c1, c2)` satisfying the OLS normal equations of
`y` on the intercept, `f` and the sign-interacted `f·sign(f_{t-1})` — with
nonsingular Gram matrix, so the OLS coefficients are unique — the hedged
return at any period `t ≥ 1` equals `y_t − (c1 + c2·sign(f_{t-1}))·f_t`,
where `sign(f_{t-1})` is `+1` when `f_{t-1} > 0` and `−1` otherwise (zero
maps to `−1`). -/
theorem hedged_return_formula (n : ℕ) (f y : ℕ → ℚ) (c0 c1 c2 : ℚ)
    (hdet : gramDet n f ≠ 0) (hc : normalEq n f y c0 c1 c2) (t : ℕ)
    (ht : 1 ≤ t) :
    calc_hedged_return n f y t =
      y t - (c1 + c2 * (if 0 < f (t - 1) then 1 else -1)) * f t := by
  obtain ⟨hA, hB, hC⟩ := normalEq_moments n f y c0 c1 c2 hc
  have hb1 : beta1 n f y = c1 := by
    rw [beta1,
      show det3 (n : ℚ) (sY n y) (sG n f) (sF n f) (sFY n f y) (sFG n f)
          (sG n f) (sGY n f y) (sGG n f) = gramDet n f * c1 from by
        rw [hA, hB, hC]; unfold gramDet det3; ring,
      mul_comm, mul_div_assoc, div_self hdet, mul_one]
  have hb2 : beta2 n f y = c2 := by
    rw [beta2,
      show det3 (n : ℚ) (sF n f) (sY n y) (sF n f) (sFF n f) (sFY n f y)
          (sG n f) (sFG n f) (sGY n f y) = gramDet n f * c2 from by
        rw [hA, hB, hC]; unfold gramDet det3; ring,
      mul_comm, mul_div_assoc, div_self hdet, mul_one]
  have hs : shiftedSign f t = if 0 < f (t - 1) then 1 else -1 := by
    unfold shiftedSign shift1 nanGt
    rw [if_neg (by omega : ¬t = 0)]
    by_cases hf : 0 < f (t - 1) <;> simp [hf]
  rw [calc_hedged_return, time_varying_beta, calc_multiple_beta, hs, hb1, hb2]

/-- Market series of the C4 witness: `1, 2, -1` on three days. -/
def fW : ℕ → ℚ := fun t => if t = 0 then 1 else if t = 1 then 2 else -1

/-- Strategy series of the C4 witness, an exact fit of
`y = 1 + 2·f + 3·(f·sign)`: `0, 11, -4`. -/
def yW : ℕ → ℚ := fun t => if t = 0 then 0 else if t = 1 then 11 else -4

/-- **C4 witness**: on the three-day series the fit is exact with
coefficients `(1, 2, 3)`, the Gram determinant is `36`, and the theorem
yields the hedged return at day 1. -/
theorem hedged_return_formula_witness :
    gramDet 3 fW ≠ 0 ∧ normalEq 3 fW yW 1 2 3 ∧
      calc_hedged_return 3 fW yW 1 =
        yW 1 - (2 + 3 * (if 0 < fW 0 then 1 else -1)) * fW 1 := by
  have hdet : gramDet 3 fW ≠ 0 := by
    norm_num [gramDet, det3, sF, sG, sFF, sFG, sGG, mSum, signFactor,
      shiftedSign, shift1, nanGt, fW, Finset.sum_range_succ]
  have hc : normalEq 3 fW yW 1 2 3 := by
    refine ⟨?_, ?_, ?_⟩ <;>
      norm_num [normalEq, residual, mSum, signFactor, shiftedSign, shift1,
        nanGt, fW, yW, Finset.sum_range_succ]
  exact ⟨hdet, hc,
    hedged_return_formula 3 fW yW 1 2 3 hdet hc 1 (by norm_num)⟩

/-- **C10.** At the very first period of the market series the one-step
shift has no prior value; the strict `> 0` test sends the missing value to
the else branch, so the sign is `−1` and the sign-interacted factor, the
time-varying beta, and the hedged return are all defined there:
`hedged_0 = y_0 − (β1 − β2)·f_0`. -/
theorem first_period_sign_is_minus_one (n : ℕ) (f y : ℕ → ℚ) :
    shiftedSign f 0 = -1 ∧ signFactor f 0 = -f 0 ∧
      calc_hedged_return n f y 0 =
        y 0 - (beta1 n f y - beta2 n f y) * f 0 := by
  have hs : shiftedSign f 0 = -1 := rfl
  refine ⟨hs, ?_, ?_⟩
  · rw [signFactor, hs]
    ring
  · rw [calc_hedged_return, time_varying_beta, calc_multiple_beta, hs]
    ring

/-! ## Predictive-regression design table (`prepare_data`, daily branch)

The three input series are modelled, after their initial `dropna`, as total
functions on a common trading calendar indexed by `ℕ`; `dateOf` maps a
trading-day index to its encoded calendar date (`yyyymmdd`). -/

/-- `vix / np.sqrt(250)`. -/
noncomputable def vixNorm (vix : ℕ → ℝ) (t : ℕ) : ℝ :=
  vix t / Real.sqrt 250

/-- `(1 + rm).rolling(20).apply(np.prod) - 1`: the trailing 20-period
compounded market return, missing on the first 19 trading days. -/
noncomputable def rm20 (rm : ℕ → ℝ) (t : ℕ) : Option ℝ :=
  if 19 ≤ t then some ((∏ i in Finset.range 20, (1 + rm (t - i))) - 1)
  else none

/-- The structural-break calendar cutoff `'2001-04-09'` as `yyyymmdd`. -/
def decimCutoff : ℕ := 20010409

/-- The dummy `g`: `1` on trading days dated on/before the cutoff, else `0`. -/
noncomputable def preDecim (dateOf : ℕ → ℕ) (t : ℕ) : ℝ :=
  if dateOf t ≤ decimCutoff then 1 else 0

/-- `series.shift(lag)`: the value `lag` trading days earlier, missing on
the first `lag` days. -/
def shiftL (lag : ℕ) (s : ℕ → Option ℝ) (t : ℕ) : Option ℝ :=
  if lag ≤ t then s (t - lag) else none

/-- One row of the regression design table built by `prepare_data` (daily
branch): the unlagged dependent return concatenated with the three
predictors shifted by `lag`, and present only when no component is missing
(`data.dropna`). -/
noncomputable def designRow (ret vix rm : ℕ → ℝ) (dateOf : ℕ → ℕ)
    (lag : ℕ) (t : ℕ) : Option (ℝ × ℝ × ℝ × ℝ) :=
  match shiftL lag (fun u => some (vixNorm vix u)) t,
      shiftL lag (rm20 rm) t,
      shiftL lag (fun u => some (preDecim dateOf u)) t with
  | some v, some m, some g => some (ret t, v, m, g)
  | _, _, _ => none

/-- **C6.** In the daily design table every predictor is lagged by exactly
5 trading days relative to the unlagged dependent return: the row of
trading day `t` (for `t ≥ 24`, so the 20-day rolling window of the market
control exists) pairs `ret t` with the day-`t−5` values of the normalized
volatility, the trailing compounded market return, and the break dummy; in
particular a volatility value of `20.0` on day `D = t−5` enters the row of
day `D+5` as `20/√250`. -/
theorem design_row_lag5 (ret vix rm : ℕ → ℝ) (dateOf : ℕ → ℕ) (t : ℕ)
    (ht : 24 ≤ t) :
    designRow ret vix rm dateOf 5 t =
        some (ret t, vix (t - 5) / Real.sqrt 250,
          (∏ i in Finset.range 20, (1 + rm (t - 5 - i))) - 1,
          preDecim dateOf (t - 5)) ∧
      (vix (t - 5) = 20 → designRow ret vix rm dateOf 5 t =
        some (ret t, 20 / Real.sqrt 250,
          (∏ i in Finset.range 20, (1 + rm (t - 5 - i))) - 1,
          preDecim dateOf (t - 5))) := by
  have h5 : 5 ≤ t := by omega
  have h19 : 19 ≤ t - 5 := by omega
  have h1 : designRow ret vix rm dateOf 5 t =
      some (ret t, vix (t - 5) / Real.sqrt 250,
        (∏ i in Finset.range 20, (1 + rm (t - 5 - i))) - 1,
        preDecim dateOf (t - 5)) := by
    simp [designRow, shiftL, vixNorm, rm20, h5, h19]
  exact ⟨h1, fun hv => by rw [h1, hv]⟩

/-- **C6 witness**: constant series, day 24; the volatility value `20` of
day 19 enters the design row of day 24 as `20/√250`. -/
theorem design_row_lag5_witness :
    designRow (fun _ => 1) (fun _ => 20) (fun _ => 0) (fun _ => 0) 5 24 =
      some (1, 20 / Real.sqrt 250, 0, 1) := by
  have h := (design_row_lag5 (fun _ => 1) (fun _ => 20) (fun _ => 0)
    (fun _ => 0) 24 (by norm_num)).2 rfl
  rw [h]
  norm_num [preDecim, decimCutoff]

/-! ## Monthly aggregation (`daily_to_monthly`, dependent variable) -/

/-- `ret.resample('M').mean()` at one calendar month `m`: running
(sum, count) over the daily rows of that month, then their quotient.  Rows
are `(date, value)` pairs and `monthOf` maps a date to its calendar month. -/
def resampleMean (monthOf : ℕ → ℕ) (rows : List (ℕ × ℚ)) (m : ℕ) : ℚ :=
  let acc := rows.foldl
    (fun (p : ℚ × ℕ) x => if monthOf x.1 = m then (p.1 + x.2, p.2 + 1) else p)
    (0, 0)
  acc.1 / (acc.2 : ℚ)

theorem foldl_month_acc (monthOf : ℕ → ℕ) (rows : List (ℕ × ℚ)) (m : ℕ)
    (s : ℚ) (k : ℕ) :
    rows.foldl
        (fun (p : ℚ × ℕ) x =>
          if monthOf x.1 = m then (p.1 + x.2, p.2 + 1) else p) (s, k) =
      (s + ((rows.filter (fun x => monthOf x.1 = m)).map
          (fun x => x.2)).sum,
        k + (rows.filter (fun x => monthOf x.1 = m)).length) := by
  induction rows generalizing s k with
  | nil => simp
  | cons x xs ih =>
      rw [List.foldl_cons, List.filter_cons]
      by_cases h : monthOf x.1 = m
      · rw [if_pos h, if_pos (by simp [h]), ih]
        simp only [List.map_cons, List.sum_cons, List.length_cons,
          Prod.mk.injEq]
        exact ⟨by ring, by omega⟩
      · rw [if_neg h, if_neg (by simp [h]), ih]

/-- **C7.** For every calendar month `m` with at least one daily
observation, the monthly dependent variable equals the arithmetic mean of
the daily strategy-return values whose date falls in month `m`. -/
theorem monthly_dependent_is_mean (monthOf : ℕ → ℕ)
    (rows : List (ℕ × ℚ)) (m : ℕ)
    (_h : rows.filter (fun x => monthOf x.1 = m) ≠ []) :
    resampleMean monthOf rows m =
      ((rows.filter (fun x => monthOf x.1 = m)).map (fun x => x.2)).sum /
        ((rows.filter (fun x => monthOf x.1 = m)).length : ℚ) := by
  unfold resampleMean
  rw [foldl_month_acc]
  norm_num

/-- Six daily rows in two months (dates `yyyymmdd`-free, month = `d / 100`). -/
def rowsTwoMonths : List (ℕ × ℚ) :=
  [(101, 1), (102, 2), (103, 6), (201, 4), (202, 5), (203, 9)]

/-- **C7 witness**: a hand-built 3-day-per-month series; month `1` is
nonempty and its dependent value is the mean of its three daily values. -/
theorem monthly_dependent_is_mean_witness :
    rowsTwoMonths.filter (fun x => x.1 / 100 = 1) ≠ [] ∧
      resampleMean (fun d => d / 100) rowsTwoMonths 1 =
        ((rowsTwoMonths.filter (fun x => x.1 / 100 = 1)).map
            (fun x => x.2)).sum /
          ((rowsTwoMonths.filter (fun x => x.1 / 100 = 1)).length : ℚ) :=
  ⟨by simp [rowsTwoMonths],
    monthly_dependent_is_mean (fun d => d / 100) rowsTwoMonths 1
      (by simp [rowsTwoMonths])⟩

end Reversal
